import Mathlib

/-!
# TCP chat server (`main.go`): registry, history log, broadcaster, session protocol

A shallow embedding of `src/main.go`.

* A `net.Conn` is a connection identity (`Conn`), a `*Client` is a pointer (`Ptr`) into a
  heap of `Client` structs: the registry stores pointers, `broadcast` compares pointers, and
  a rename mutates the struct behind the pointer.
* The registry `clients` (a Go map) is an association list; a well-formed map has unique
  keys.  Go iterates a map in an unspecified order; the model iterates in list order, and the
  output is kept per connection, so it does not depend on that order.
* `written c` is the sequence of payloads of the `Write` calls issued on connection `c`.
  The source discards the result of every write, so a transport failure changes nothing in
  the program state.
* Each function body is one state transformer: the two mutexes serialise the critical
  sections, and the theorems describe one call running without another handler in between.
* Strings are sequences of characters.  The only indexing in the source is the test
  `len(message) > 6 && message[:6] == "/name "` and the slice `message[6:]`; the prefix is six
  one-byte characters, so on every message the test has the same outcome by bytes and by
  characters, and the slice is the same string.
* `time.Now().Format(...)` and the banner file are inputs; the server-side `log` output is
  not part of the state.
-/

namespace NetCat

/-- Identity of an accepted connection (`net.Conn`). -/
abbrev Conn := Nat

/-- Address of a `Client` struct (`*Client`). -/
abbrev Ptr := Nat

/-- The struct `Client`. -/
structure Client where
  conn : Conn
  name : String

/-- The package-level variables `clients` and `msgHistory`, the heap of `Client` structs,
and the effects on the connections. -/
structure State where
  /-- The `Client` struct at each address. -/
  heap : Ptr → Client
  /-- First address not yet allocated. -/
  nextPtr : Ptr
  /-- The map `clients`, from connection to client pointer. -/
  clients : List (Conn × Ptr)
  /-- The slice `msgHistory`. -/
  msgHistory : List String
  /-- Payloads of the write calls issued on each connection, oldest first. -/
  written : Conn → List String
  /-- Connections on which `Close` was called, oldest first. -/
  closed : List Conn

/-- The state at process start: empty map, empty history, nothing written. -/
def State.init : State :=
  { heap := fun _ => ⟨0, ""⟩, nextPtr := 0, clients := [], msgHistory := [],
    written := fun _ => [], closed := [] }

/-- Go map assignment `m[k] = v`: the binding of `k` is replaced or added. -/
def mapInsert (k : Conn) (v : Ptr) (m : List (Conn × Ptr)) : List (Conn × Ptr) :=
  (k, v) :: m.filter (fun e => e.1 ≠ k)

/-- Go `delete(m, k)`: the binding of `k`, if any, is removed. -/
def mapDelete (k : Conn) (m : List (Conn × Ptr)) : List (Conn × Ptr) :=
  m.filter (fun e => e.1 ≠ k)

/-- One `Write` call on connection `c` with payload `data` (its result is discarded). -/
def State.write (st : State) (c : Conn) (data : String) : State :=
  { st with written := fun k => if k = c then st.written k ++ [data] else st.written k }

/-- Call of `fmt.Fprintln(conn, msg)`: writes `msg` and a newline in one write. -/
def Fprintln (c : Conn) (msg : String) (st : State) : State :=
  st.write c (msg ++ "\n")

/-- Call of `conn.Close()`. -/
def State.close (st : State) (c : Conn) : State :=
  { st with closed := st.closed ++ [c] }

/-- Assignment `client.name = newName` through the pointer. -/
def State.setName (st : State) (client : Ptr) (newName : String) : State :=
  { st with heap := fun q => if q = client then { st.heap q with name := newName } else st.heap q }

/-- Allocation `&Client{conn: conn, name: name}`: a fresh address holding the struct. -/
def State.alloc (st : State) (c : Client) : Ptr × State :=
  (st.nextPtr,
   { st with heap := fun q => if q = st.nextPtr then c else st.heap q,
             nextPtr := st.nextPtr + 1 })

/-- The loop of `broadcast` over the map entries `entries`. -/
def broadcastLoop (message : String) (sender : Ptr) : List (Conn × Ptr) → State → State
  | [], st => st
  | e :: rest, st =>
    if e.2 ≠ sender then
      broadcastLoop message sender rest (Fprintln (st.heap e.2).conn message st)
    else
      broadcastLoop message sender rest st

/-- Function `broadcast`: writes `message` and a newline to every client of the map whose
pointer differs from `sender`. -/
def broadcast (message : String) (sender : Ptr) (st : State) : State :=
  broadcastLoop message sender st.clients st

/-- Function `logMessage`: appends to `msgHistory`. -/
def logMessage (message : String) (st : State) : State :=
  { st with msgHistory := st.msgHistory ++ [message] }

/-- The loop of `sendHistory` over the messages `msgs`. -/
def sendHistoryLoop (client : Ptr) : List String → State → State
  | [], st => st
  | msg :: rest, st => sendHistoryLoop client rest (Fprintln (st.heap client).conn msg st)

/-- Function `sendHistory`: writes every history entry to the client's connection. -/
def sendHistory (client : Ptr) (st : State) : State :=
  sendHistoryLoop client st.msgHistory st

/-- Function `registerClient`. -/
def registerClient (client : Ptr) (st : State) : State :=
  let st1 := { st with clients := mapInsert (st.heap client).conn client st.clients }
  let welcomeMessage := (st1.heap client).name ++ " has joined the chat"
  let st2 := broadcast welcomeMessage client st1
  sendHistory client st2

/-- Function `unregisterClient`. -/
def unregisterClient (client : Ptr) (st : State) : State :=
  let st1 := { st with clients := mapDelete (st.heap client).conn st.clients }
  let farewellMessage := (st1.heap client).name ++ " has left the chat"
  let st2 := broadcast farewellMessage client st1
  st2.close (st2.heap client).conn

/-- The guard `len(message) > 6 && message[:6] == "/name "` of `handleClient`. -/
def isNameCommand (message : String) : Bool :=
  decide (message.length > 6) && decide (message.data.take 6 = "/name ".data)

/-- The slice `message[6:]`. -/
def sliceFrom6 (message : String) : String :=
  ⟨message.data.drop 6⟩

/-- The body of the read loop of `handleClient` for one scanned line `message`;
`timestamp` is the value of `time.Now().Format("2006-01-02 15:04:05")` at that moment. -/
def handleLine (conn : Conn) (client : Ptr) (message timestamp : String) (st : State) : State :=
  if message = "" then
    st
  else if isNameCommand message then
    let newName := sliceFrom6 message
    if newName ≠ "" then
      let oldName := (st.heap client).name
      let st1 := st.setName client newName
      let notification := oldName ++ " has changed their name to " ++ newName
      let st2 := broadcast notification client st1
      st2.write conn ("Your name has been changed to " ++ newName ++ "\n")
    else
      Fprintln conn "Name change failed. New name cannot be empty." st
  else
    let formattedMessage :=
      "[" ++ timestamp ++ "][" ++ (st.heap client).name ++ "]: " ++ message
    let st1 := logMessage formattedMessage st
    broadcast formattedMessage client st1

/-- The read loop `for scanner.Scan() { ... }` of `handleClient` over the lines the scanner
yields before it stops, each paired with the clock reading taken while it is handled. -/
def readLoop (conn : Conn) (client : Ptr) : List (String × String) → State → State
  | [], st => st
  | l :: rest, st => readLoop conn client rest (handleLine conn client l.1 l.2 st)

/-- Function `handleClient` up to its read loop (banner, prompt, first scan, allocation of
the `Client`, `registerClient`); returns the client pointer and the state.  `art` is the
banner read by `readArt`; `nameScan` is the token of the first `scanner.Scan()`, `none` when
that scan fails.  The source does not look at the result of that `Scan`: `scanner.Text()`
is then the empty string. -/
def handleClientEntry (conn : Conn) (art : String) (nameScan : Option String) (st : State) :
    Ptr × State :=
  let st1 := st.write conn art
  let st2 := st1.write conn "ENTER YOUR NAME: "
  let name := match nameScan with
    | some l => l
    | none => ""
  let (client, st3) := st2.alloc ⟨conn, name⟩
  (client, registerClient client st3)

/-- Function `handleClient`.  `lines` are the tokens that the scans of the read loop yield
before a scan fails, each with the clock reading taken while it is handled.  The loop runs
on them whatever the first scan returned: after end of stream there are none, after a first
scan that stopped on an over-long line the scanner can still yield what it has buffered.
The deferred calls run last: `unregisterClient(client)`, then `conn.Close()`. -/
def handleClient (conn : Conn) (art : String) (nameScan : Option String)
    (lines : List (String × String)) (st : State) : State :=
  let (client, st4) := handleClientEntry conn art nameScan st
  let st5 := readLoop conn client lines st4
  let st6 := unregisterClient client st5
  st6.close conn

/-- A run of `logMessage` calls, one per message of `ms`, in order. -/
def logAll (ms : List String) (st : State) : State :=
  ms.foldl (fun s m => logMessage m s) st

/-- The string `formattedMessage` that `handleClient` builds for a chat line. -/
def formatMessage (timestamp name message : String) : String :=
  "[" ++ timestamp ++ "][" ++ name ++ "]: " ++ message

/-- The steps of the protocol that touch the shared state: the two registry calls and the
loop body on one scanned line. -/
inductive Step where
  | register (client : Ptr)
  | unregister (client : Ptr)
  | line (conn : Conn) (client : Ptr) (message timestamp : String)

/-- Effect of one protocol step. -/
def step (st : State) : Step → State
  | .register client => registerClient client st
  | .unregister client => unregisterClient client st
  | .line conn client message timestamp => handleLine conn client message timestamp st

/-- The client pointer is bound in the map under its own connection. -/
def State.registered (st : State) (client : Ptr) : Prop :=
  ((st.heap client).conn, client) ∈ st.clients

/-- Well-formed registry: keys are unique and every client is bound under its own
connection (the only insertion is `clients[client.conn] = client`). -/
def State.wf (st : State) : Prop :=
  (st.clients.map Prod.fst).Nodup ∧ ∀ e ∈ st.clients, (st.heap e.2).conn = e.1

instance (st : State) (client : Ptr) : Decidable (st.registered client) := by
  unfold State.registered; infer_instance

instance (st : State) : Decidable st.wf := by
  unfold State.wf; infer_instance

/-- A state with one registered client `A` (pointer 1, connection 1) and an allocated,
unregistered client `B` (pointer 2, connection 2). -/
def stA : State :=
  { heap := fun q => if q = 1 then ⟨1, "A"⟩ else if q = 2 then ⟨2, "B"⟩ else ⟨0, ""⟩,
    nextPtr := 3, clients := [(1, 1)], msgHistory := ["old"],
    written := fun _ => [], closed := [] }

/-- A state with two registered clients `Alice` (pointer 1, connection 1) and `Carol`
(pointer 2, connection 2). -/
def stAB : State :=
  { heap := fun q => if q = 1 then ⟨1, "Alice"⟩ else if q = 2 then ⟨2, "Carol"⟩ else ⟨0, ""⟩,
    nextPtr := 3, clients := [(1, 1), (2, 2)], msgHistory := [],
    written := fun _ => [], closed := [] }


/-! ## Frame lemmas -/

@[simp] theorem write_heap (st : State) (c : Conn) (d : String) :
    (st.write c d).heap = st.heap := rfl

@[simp] theorem write_clients (st : State) (c : Conn) (d : String) :
    (st.write c d).clients = st.clients := rfl

@[simp] theorem write_msgHistory (st : State) (c : Conn) (d : String) :
    (st.write c d).msgHistory = st.msgHistory := rfl

@[simp] theorem write_closed (st : State) (c : Conn) (d : String) :
    (st.write c d).closed = st.closed := rfl

@[simp] theorem write_nextPtr (st : State) (c : Conn) (d : String) :
    (st.write c d).nextPtr = st.nextPtr := rfl

theorem write_written (st : State) (c k : Conn) (d : String) :
    (st.write c d).written k = if k = c then st.written k ++ [d] else st.written k := rfl

theorem broadcastLoop_frame (m : String) (s : Ptr) (es : List (Conn × Ptr)) (st : State) :
    (broadcastLoop m s es st).heap = st.heap ∧
    (broadcastLoop m s es st).clients = st.clients ∧
    (broadcastLoop m s es st).msgHistory = st.msgHistory ∧
    (broadcastLoop m s es st).closed = st.closed ∧
    (broadcastLoop m s es st).nextPtr = st.nextPtr := by
  induction es generalizing st with
  | nil => simp [broadcastLoop]
  | cons e rest ih =>
    unfold broadcastLoop
    split
    · have h := ih (Fprintln (st.heap e.2).conn m st)
      simpa [Fprintln] using h
    · exact ih st

/-- Every connection receives the payload once per map entry that names it and is not the
sender. -/
theorem broadcastLoop_written (m : String) (s : Ptr) (es : List (Conn × Ptr)) (st : State)
    (c : Conn) :
    (broadcastLoop m s es st).written c =
      st.written c ++ List.replicate
        (es.countP (fun e => decide (e.2 ≠ s) && decide ((st.heap e.2).conn = c)))
        (m ++ "\n") := by
  induction es generalizing st with
  | nil => simp [broadcastLoop]
  | cons e rest ih =>
    unfold broadcastLoop
    by_cases hs : e.2 ≠ s
    · rw [if_pos hs, ih]
      by_cases hc : (st.heap e.2).conn = c
      · have hc2 : c = (st.heap e.2).conn := hc.symm
        simp [Fprintln, write_written, List.countP_cons, hs, hc, List.replicate_succ]
      · have hc2 : ¬ c = (st.heap e.2).conn := fun h => hc h.symm
        simp [Fprintln, write_written, List.countP_cons, hs, hc, hc2]
    · rw [if_neg hs, ih]
      have hs2 : e.2 = s := not_not.mp hs
      simp [List.countP_cons, hs2]

theorem key_unique {es : List (Conn × Ptr)} (hk : (es.map Prod.fst).Nodup)
    {e1 e2 : Conn × Ptr} (h1 : e1 ∈ es) (h2 : e2 ∈ es) (h : e1.1 = e2.1) : e1 = e2 :=
  List.inj_on_of_nodup_map hk h1 h2 h

theorem countP_eq_one {es : List (Conn × Ptr)} (hn : es.Nodup) {e : Conn × Ptr}
    (he : e ∈ es) : es.countP (fun x => decide (x = e)) = 1 := by
  induction es with
  | nil => cases he
  | cons a rest ih =>
    have hn2 := List.nodup_cons.mp hn
    by_cases hae : a = e
    · subst hae
      have h0 : rest.countP (fun x => decide (x = a)) = 0 := by
        rw [List.countP_eq_zero]
        intro x hx hp
        have : x = a := by simpa using hp
        exact hn2.1 (this ▸ hx)
      simp [List.countP_cons, h0]
    · have he2 : e ∈ rest := by
        rcases List.mem_cons.mp he with h | h
        · exact absurd h.symm hae
        · exact h
      simp [List.countP_cons, hae, ih hn2.2 he2]

/-- A client other than the sender, bound under its own connection in a map with unique
keys, receives the payload exactly once. -/
theorem broadcast_recipient (m : String) (s : Ptr) (st : State) (hwf : st.wf)
    (e : Conn × Ptr) (he : e ∈ st.clients) (hs : e.2 ≠ s) :
    (broadcast m s st).written e.1 = st.written e.1 ++ [m ++ "\n"] := by
  unfold broadcast
  rw [broadcastLoop_written]
  have hcount : st.clients.countP
      (fun x => decide (x.2 ≠ s) && decide ((st.heap x.2).conn = e.1)) = 1 := by
    have h1 : st.clients.countP
        (fun x => decide (x.2 ≠ s) && decide ((st.heap x.2).conn = e.1)) =
        st.clients.countP (fun x => decide (x = e)) := by
      apply List.countP_congr
      intro x hx
      have hxc := hwf.2 x hx
      constructor
      · intro hp
        simp only [Bool.and_eq_true, decide_eq_true_eq] at hp
        have : x = e := key_unique hwf.1 hx he (by rw [← hxc]; exact hp.2)
        simp [this]
      · intro hp
        have : x = e := by simpa using hp
        subst this
        simp [hs, hxc]
    rw [h1]
    exact countP_eq_one (List.Nodup.of_map _ hwf.1) he
  rw [hcount]
  rfl

/-- A connection that no entry other than the sender's names receives nothing. -/
theorem broadcast_silent (m : String) (s : Ptr) (st : State) (c : Conn)
    (h : ∀ e ∈ st.clients, e.2 ≠ s → (st.heap e.2).conn ≠ c) :
    (broadcast m s st).written c = st.written c := by
  unfold broadcast
  rw [broadcastLoop_written]
  have hcount : st.clients.countP
      (fun x => decide (x.2 ≠ s) && decide ((st.heap x.2).conn = c)) = 0 := by
    rw [List.countP_eq_zero]
    intro x hx hp
    simp only [Bool.and_eq_true, decide_eq_true_eq] at hp
    exact h x hx hp.1 hp.2
  rw [hcount]
  simp

/-- The sender, when registered in a well-formed map, receives nothing from its own
broadcast. -/
theorem broadcast_sender (m : String) (s : Ptr) (st : State) (hwf : st.wf)
    (hreg : st.registered s) :
    (broadcast m s st).written (st.heap s).conn = st.written (st.heap s).conn := by
  apply broadcast_silent
  intro e he hs hc
  have hk : e.1 = ((st.heap s).conn, s).1 := by rw [← hwf.2 e he]; exact hc
  have := key_unique hwf.1 he hreg hk
  exact hs (by rw [this])

/-- A connection that is not a key of a well-formed map receives nothing. -/
theorem broadcast_unbound (m : String) (s : Ptr) (st : State) (hwf : st.wf) (c : Conn)
    (hc : c ∉ st.clients.map Prod.fst) :
    (broadcast m s st).written c = st.written c := by
  apply broadcast_silent
  intro e he _ hcc
  apply hc
  rw [← hcc, hwf.2 e he]
  exact List.mem_map_of_mem Prod.fst he

theorem broadcast_frame (m : String) (s : Ptr) (st : State) :
    (broadcast m s st).heap = st.heap ∧
    (broadcast m s st).clients = st.clients ∧
    (broadcast m s st).msgHistory = st.msgHistory ∧
    (broadcast m s st).closed = st.closed ∧
    (broadcast m s st).nextPtr = st.nextPtr :=
  broadcastLoop_frame m s st.clients st

theorem sendHistoryLoop_frame (p : Ptr) (ms : List String) (st : State) :
    (sendHistoryLoop p ms st).heap = st.heap ∧
    (sendHistoryLoop p ms st).clients = st.clients ∧
    (sendHistoryLoop p ms st).msgHistory = st.msgHistory ∧
    (sendHistoryLoop p ms st).closed = st.closed ∧
    (sendHistoryLoop p ms st).nextPtr = st.nextPtr := by
  induction ms generalizing st with
  | nil => simp [sendHistoryLoop]
  | cons x rest ih =>
    unfold sendHistoryLoop
    have h := ih (Fprintln (st.heap p).conn x st)
    simpa [Fprintln] using h

theorem sendHistoryLoop_written (p : Ptr) (ms : List String) (st : State) (c : Conn) :
    (sendHistoryLoop p ms st).written c =
      if c = (st.heap p).conn then st.written c ++ ms.map (fun x => x ++ "\n")
      else st.written c := by
  induction ms generalizing st with
  | nil => simp [sendHistoryLoop]
  | cons x rest ih =>
    unfold sendHistoryLoop
    rw [ih]
    by_cases hc : c = (st.heap p).conn
    · simp [Fprintln, write_written, hc]
    · simp [Fprintln, write_written, hc]

theorem sendHistory_frame (p : Ptr) (st : State) :
    (sendHistory p st).heap = st.heap ∧
    (sendHistory p st).clients = st.clients ∧
    (sendHistory p st).msgHistory = st.msgHistory ∧
    (sendHistory p st).closed = st.closed ∧
    (sendHistory p st).nextPtr = st.nextPtr :=
  sendHistoryLoop_frame p st.msgHistory st

theorem sendHistory_written (p : Ptr) (st : State) (c : Conn) :
    (sendHistory p st).written c =
      if c = (st.heap p).conn then st.written c ++ st.msgHistory.map (fun x => x ++ "\n")
      else st.written c :=
  sendHistoryLoop_written p st.msgHistory st c

theorem logAll_eq (ms : List String) (st : State) :
    logAll ms st = { st with msgHistory := st.msgHistory ++ ms } := by
  unfold logAll
  induction ms generalizing st with
  | nil => simp
  | cons x rest ih =>
    rw [List.foldl_cons, ih]
    simp [logMessage]

theorem registerClient_msgHistory (p : Ptr) (st : State) :
    (registerClient p st).msgHistory = st.msgHistory := by
  unfold registerClient
  simp only [(sendHistory_frame _ _).2.2.1, (broadcast_frame _ _ _).2.2.1]

theorem unregisterClient_msgHistory (p : Ptr) (st : State) :
    (unregisterClient p st).msgHistory = st.msgHistory := by
  unfold unregisterClient
  simp only [State.close, (broadcast_frame _ _ _).2.2.1]

/-! ## The three cases of the loop body -/

theorem handleLine_empty (conn : Conn) (p : Ptr) (ts : String) (st : State) :
    handleLine conn p "" ts st = st := by
  simp [handleLine]

theorem isNameCommand_length {m : String} (h : isNameCommand m = true) : 6 < m.length := by
  unfold isNameCommand at h
  simp only [Bool.and_eq_true, decide_eq_true_eq] at h
  exact h.1

theorem isNameCommand_ne_empty {m : String} (h : isNameCommand m = true) : m ≠ "" := by
  intro hm
  have := isNameCommand_length h
  rw [hm] at this
  exact absurd this (by decide)

/-- Inside the `/name` branch the new name is never empty: the `else` branch that writes the
failure notice cannot be reached. -/
theorem sliceFrom6_ne_empty {m : String} (h : isNameCommand m = true) : sliceFrom6 m ≠ "" := by
  intro hs
  have hl := isNameCommand_length h
  have hd : (sliceFrom6 m).data = [] := by rw [hs]
  have : (m.data.drop 6).length = 0 := by
    simp only [sliceFrom6] at hd
    rw [hd]
    rfl
  rw [List.length_drop] at this
  have hlen : m.length = m.data.length := rfl
  omega

/-- A line that does not begin with the six characters of the command is rejected by the
guard. -/
theorem isNameCommand_false_of_other_start (m : String)
    (h : ¬ ("/name " : String).data <+: m.data) : isNameCommand m = false := by
  cases hc : isNameCommand m with
  | false => rfl
  | true =>
    exfalso
    apply h
    unfold isNameCommand at hc
    simp only [Bool.and_eq_true, decide_eq_true_eq] at hc
    have h2 : List.take 6 m.data = ("/name " : String).data := hc.2
    rw [← h2]
    exact List.take_prefix 6 m.data

theorem handleLine_rename (conn : Conn) (p : Ptr) (m ts : String) (st : State)
    (h : isNameCommand m = true) :
    handleLine conn p m ts st =
      (broadcast ((st.heap p).name ++ " has changed their name to " ++ sliceFrom6 m) p
        (st.setName p (sliceFrom6 m))).write conn
        ("Your name has been changed to " ++ sliceFrom6 m ++ "\n") := by
  unfold handleLine
  rw [if_neg (isNameCommand_ne_empty h), if_pos h]
  simp only [ne_eq]
  rw [if_pos (sliceFrom6_ne_empty h)]

theorem handleLine_chat (conn : Conn) (p : Ptr) (m ts : String) (st : State)
    (hne : m ≠ "") (h : isNameCommand m = false) :
    handleLine conn p m ts st =
      broadcast (formatMessage ts (st.heap p).name m) p
        (logMessage (formatMessage ts (st.heap p).name m) st) := by
  unfold handleLine
  rw [if_neg hne, h]
  simp [formatMessage]

theorem isNameCommand_slashName (new : String) (hnew : new ≠ "") :
    isNameCommand ("/name " ++ new) = true := by
  unfold isNameCommand
  have hlen : 0 < new.length := by
    rcases Nat.eq_zero_or_pos new.length with h0 | hpos
    · have hd0 : new.data = [] := List.length_eq_zero.mp h0
      exact absurd (String.ext hd0) hnew
    · exact hpos
  have h6 : ("/name " : String).length = 6 := by decide
  have hd : ("/name " ++ new).data = "/name ".data ++ new.data := String.data_append _ _
  have hdl : ("/name " : String).data.length = 6 := by decide
  simp only [Bool.and_eq_true, decide_eq_true_eq]
  constructor
  · rw [String.length_append, h6]; omega
  · rw [hd, List.take_left' hdl]

theorem sliceFrom6_slashName (new : String) : sliceFrom6 ("/name " ++ new) = new := by
  unfold sliceFrom6
  have hd : ("/name " ++ new).data = "/name ".data ++ new.data := String.data_append _ _
  have hdl : ("/name " : String).data.length = 6 := by decide
  rw [hd, List.drop_left' hdl]

/-! ## The well-formedness invariant -/

theorem wf_init : State.init.wf := by decide

theorem setName_conn (st : State) (p q : Ptr) (n : String) :
    ((st.setName p n).heap q).conn = (st.heap q).conn := by
  unfold State.setName
  by_cases h : q = p <;> simp [h]

theorem setName_name (st : State) (p : Ptr) (n : String) :
    ((st.setName p n).heap p).name = n := by
  simp [State.setName]

theorem wf_setName (st : State) (p : Ptr) (n : String) (hwf : st.wf) :
    (st.setName p n).wf := by
  refine ⟨hwf.1, ?_⟩
  intro e he
  rw [setName_conn]
  exact hwf.2 e he

theorem registered_setName (st : State) (p : Ptr) (n : String) (h : st.registered p) :
    (st.setName p n).registered p := by
  unfold State.registered
  rw [setName_conn]
  exact h

theorem mapDelete_keys (k : Conn) (m : List (Conn × Ptr)) :
    k ∉ (mapDelete k m).map Prod.fst := by
  intro h
  rcases List.mem_map.mp h with ⟨e, he, hk⟩
  have := (List.mem_filter.mp he).2
  simp [hk] at this

theorem mapDelete_absent (k : Conn) (m : List (Conn × Ptr)) (h : k ∉ m.map Prod.fst) :
    mapDelete k m = m := by
  unfold mapDelete
  rw [List.filter_eq_self]
  intro e he
  have : e.1 ≠ k := fun hk => h (hk ▸ List.mem_map_of_mem Prod.fst he)
  simp [this]

theorem wf_delete (st : State) (k : Conn) (hwf : st.wf) :
    ({ st with clients := mapDelete k st.clients } : State).wf := by
  constructor
  · exact List.Nodup.sublist (List.Sublist.map _ (List.filter_sublist _)) hwf.1
  · intro e he
    exact hwf.2 e (List.mem_filter.mp he).1

theorem wf_insert (st : State) (p : Ptr) (hwf : st.wf) :
    ({ st with clients := mapInsert (st.heap p).conn p st.clients } : State).wf := by
  constructor
  · show ((mapInsert (st.heap p).conn p st.clients).map Prod.fst).Nodup
    unfold mapInsert
    rw [List.map_cons, List.nodup_cons]
    exact ⟨mapDelete_keys _ _, (wf_delete st (st.heap p).conn hwf).1⟩
  · intro e he
    rcases List.mem_cons.mp he with h | h
    · rw [h]
    · exact hwf.2 e (List.mem_filter.mp h).1

theorem wf_of_eq {st st2 : State} (hwf : st.wf) (hh : st2.heap = st.heap)
    (hc : st2.clients = st.clients) : st2.wf := by
  unfold State.wf
  rw [hh, hc]
  exact hwf

theorem registerClient_heap (p : Ptr) (st : State) :
    (registerClient p st).heap = st.heap := by
  unfold registerClient
  simp only [(sendHistory_frame _ _).1, (broadcast_frame _ _ _).1]

theorem registerClient_clients (p : Ptr) (st : State) :
    (registerClient p st).clients = mapInsert (st.heap p).conn p st.clients := by
  unfold registerClient
  simp only [(sendHistory_frame _ _).2.1, (broadcast_frame _ _ _).2.1]

theorem unregisterClient_heap (p : Ptr) (st : State) :
    (unregisterClient p st).heap = st.heap := by
  unfold unregisterClient
  simp only [State.close, (broadcast_frame _ _ _).1]

theorem unregisterClient_clients (p : Ptr) (st : State) :
    (unregisterClient p st).clients = mapDelete (st.heap p).conn st.clients := by
  unfold unregisterClient
  simp only [State.close, (broadcast_frame _ _ _).2.1]

/-- Registration keeps the registry well formed. -/
theorem wf_registerClient (p : Ptr) (st : State) (hwf : st.wf) : (registerClient p st).wf :=
  wf_of_eq (wf_insert st p hwf) (registerClient_heap p st) (registerClient_clients p st)

/-- Removal keeps the registry well formed. -/
theorem wf_unregisterClient (p : Ptr) (st : State) (hwf : st.wf) :
    (unregisterClient p st).wf :=
  wf_of_eq (wf_delete st (st.heap p).conn hwf) (unregisterClient_heap p st)
    (unregisterClient_clients p st)

/-- The loop body keeps the registry well formed. -/
theorem wf_handleLine (conn : Conn) (p : Ptr) (m ts : String) (st : State) (hwf : st.wf) :
    (handleLine conn p m ts st).wf := by
  by_cases hm : m = ""
  · rw [hm, handleLine_empty]; exact hwf
  · cases hc : isNameCommand m with
    | true =>
      rw [handleLine_rename conn p m ts st hc]
      exact wf_of_eq (wf_setName st p (sliceFrom6 m) hwf)
        (by rw [write_heap, (broadcast_frame _ _ _).1])
        (by rw [write_clients, (broadcast_frame _ _ _).2.1])
    | false =>
      rw [handleLine_chat conn p m ts st hm hc]
      exact wf_of_eq hwf (by rw [(broadcast_frame _ _ _).1]; rfl)
        (by rw [(broadcast_frame _ _ _).2.1]; rfl)

/-- Every protocol step keeps the registry well formed. -/
theorem wf_step (st : State) (s : Step) (hwf : st.wf) : (step st s).wf := by
  cases s with
  | register p => exact wf_registerClient p st hwf
  | unregister p => exact wf_unregisterClient p st hwf
  | line conn p m ts => exact wf_handleLine conn p m ts st hwf

/-- The client that `handleClient` allocates carries the handler's connection and is bound in
the registry when the read loop starts, so the loop body runs with `conn = client.conn`. -/
theorem handleClientEntry_conn (conn : Conn) (art : String) (nameScan : Option String)
    (st : State) :
    ((handleClientEntry conn art nameScan st).2.heap
      (handleClientEntry conn art nameScan st).1).conn = conn ∧
    (handleClientEntry conn art nameScan st).2.registered
      (handleClientEntry conn art nameScan st).1 := by
  have hc : ((handleClientEntry conn art nameScan st).2.heap
      (handleClientEntry conn art nameScan st).1).conn = conn := by
    simp [handleClientEntry, State.alloc, registerClient_heap]
  refine ⟨hc, ?_⟩
  unfold State.registered
  rw [hc]
  simp [handleClientEntry, State.alloc, registerClient_clients, mapInsert]

/-- In a well-formed registry an entry whose pointer is `p` is bound under the connection
of `p`. -/
theorem other_entry {st : State} (hwf : st.wf) {p : Ptr} {e : Conn × Ptr}
    (he : e ∈ st.clients) : e.2 = p → e.1 = (st.heap p).conn := by
  intro h
  rw [← h]
  exact (hwf.2 e he).symm

/-- The leave line reaches every client that remains after the removal, exactly once,
and the connection of the removed client gets nothing. -/
theorem unregisterClient_written (p : Ptr) (st : State) (hwf : st.wf) :
    (∀ e ∈ (unregisterClient p st).clients,
      (unregisterClient p st).written e.1 =
        st.written e.1 ++ [((st.heap p).name ++ " has left the chat") ++ "\n"]) ∧
    (unregisterClient p st).written (st.heap p).conn = st.written (st.heap p).conn := by
  have hwf1 := wf_delete st (st.heap p).conn hwf
  constructor
  · intro e he
    rw [unregisterClient_clients] at he
    have hk : e.1 ≠ (st.heap p).conn := by
      have := (List.mem_filter.mp he).2
      simpa using this
    have hs : e.2 ≠ p := fun h => hk (other_entry hwf (List.mem_filter.mp he).1 h)
    exact broadcast_recipient _ p _ hwf1 e he hs
  · exact broadcast_unbound _ p _ hwf1 _ (mapDelete_keys _ _)

/-! ## Chat lines and renames -/

/-- C1: when a registered session sends a non-empty line that the `/name` guard rejects, the
formatted message `[timestamp][name]: line` followed by a newline is written exactly once to
every other registered session, nothing is written to the sender, and nothing is written to
a connection outside the registry.  Every line that does not begin with `/name ` is rejected
by the guard. -/
theorem chat_line_broadcast (st : State) (p : Ptr) (line ts : String) (hwf : st.wf)
    (hreg : st.registered p) (hne : line ≠ "") (hcmd : isNameCommand line = false) :
    (∀ e ∈ st.clients, e.2 ≠ p →
      (handleLine (st.heap p).conn p line ts st).written e.1 =
        st.written e.1 ++ [formatMessage ts (st.heap p).name line ++ "\n"]) ∧
    (handleLine (st.heap p).conn p line ts st).written (st.heap p).conn =
      st.written (st.heap p).conn ∧
    (∀ c, c ∉ st.clients.map Prod.fst →
      (handleLine (st.heap p).conn p line ts st).written c = st.written c) := by
  rw [handleLine_chat _ p line ts st hne hcmd]
  have hwf1 : (logMessage (formatMessage ts (st.heap p).name line) st).wf := hwf
  refine ⟨?_, ?_, ?_⟩
  · intro e he hs
    exact broadcast_recipient _ p _ hwf1 e he hs
  · exact broadcast_sender _ p _ hwf1 hreg
  · intro c hc
    exact broadcast_unbound _ p _ hwf1 c hc

theorem chat_line_broadcast_witness :
    (handleLine 1 1 "hi" "T" stAB).written 2 = ["[T][Alice]: hi\n"] ∧
    (handleLine 1 1 "hi" "T" stAB).written 1 = [] :=
  have h := chat_line_broadcast stAB 1 "hi" "T" (by decide) (by decide) (by decide)
    (by decide)
  ⟨h.1 (2, 2) (by decide) (by decide), h.2.1⟩

/-- C2: when a registered session named `old` sends `/name ` followed by a non-empty `new`,
its name becomes `new`, every other registered session gets exactly one line
`old has changed their name to new`, the renaming session gets exactly one line
`Your name has been changed to new`, and nothing else is written; registry and history are
unchanged. -/
theorem rename_command (st : State) (p : Ptr) (new ts : String) (hwf : st.wf)
    (hreg : st.registered p) (hnew : new ≠ "") :
    ((handleLine (st.heap p).conn p ("/name " ++ new) ts st).heap p).name = new ∧
    (∀ e ∈ st.clients, e.2 ≠ p →
      (handleLine (st.heap p).conn p ("/name " ++ new) ts st).written e.1 =
        st.written e.1 ++
          [((st.heap p).name ++ " has changed their name to " ++ new) ++ "\n"]) ∧
    (handleLine (st.heap p).conn p ("/name " ++ new) ts st).written (st.heap p).conn =
      st.written (st.heap p).conn ++ ["Your name has been changed to " ++ new ++ "\n"] ∧
    (∀ c, c ∉ st.clients.map Prod.fst →
      (handleLine (st.heap p).conn p ("/name " ++ new) ts st).written c = st.written c) ∧
    (handleLine (st.heap p).conn p ("/name " ++ new) ts st).clients = st.clients ∧
    (handleLine (st.heap p).conn p ("/name " ++ new) ts st).msgHistory = st.msgHistory := by
  rw [handleLine_rename _ p _ ts st (isNameCommand_slashName new hnew), sliceFrom6_slashName]
  have hwf1 := wf_setName st p new hwf
  have hreg1 := registered_setName st p new hreg
  have hkey : (st.heap p).conn ∈ st.clients.map Prod.fst :=
    List.mem_map_of_mem Prod.fst hreg
  refine ⟨?_, ?_, ?_, ?_, ?_, ?_⟩
  · rw [write_heap, (broadcast_frame _ _ _).1]
    exact setName_name st p new
  · intro e he hs
    have hk : e.1 ≠ (st.heap p).conn := by
      intro h
      have := key_unique hwf.1 he hreg h
      exact hs (by rw [this])
    rw [write_written, if_neg hk]
    exact broadcast_recipient _ p _ hwf1 e he hs
  · rw [write_written, if_pos rfl]
    have h := broadcast_sender ((st.heap p).name ++ " has changed their name to " ++ new) p _
      hwf1 hreg1
    rw [setName_conn] at h
    rw [h]
    rfl
  · intro c hc
    have hk : c ≠ (st.heap p).conn := fun h => hc (h ▸ hkey)
    rw [write_written, if_neg hk]
    exact broadcast_unbound _ p _ hwf1 c hc
  · rw [write_clients, (broadcast_frame _ _ _).2.1]
    rfl
  · rw [write_msgHistory, (broadcast_frame _ _ _).2.2.1]
    rfl

theorem rename_command_witness :
    ((handleLine 1 1 "/name Bob" "T" stAB).heap 1).name = "Bob" ∧
    (handleLine 1 1 "/name Bob" "T" stAB).written 2 =
      ["Alice has changed their name to Bob\n"] ∧
    (handleLine 1 1 "/name Bob" "T" stAB).written 1 =
      ["Your name has been changed to Bob\n"] :=
  have h := rename_command stAB 1 "Bob" "T" (by decide) (by decide) (by decide)
  ⟨h.1, h.2.1 (2, 2) (by decide) (by decide), h.2.2.1⟩

/-- C3 (the code departs from the claim): the line `/name ` with nothing after it fails the
guard `len(message) > 6`, so it is handled as a chat line.  In every state it is appended to
the history and broadcast as `[timestamp][name]: /name `; with Alice and Carol registered,
Carol gets that chat message, Alice gets no failure notice, and the history grows. -/
theorem bare_name_command_is_chat :
    (∀ (conn : Conn) (p : Ptr) (ts : String) (st : State),
      handleLine conn p "/name " ts st =
        broadcast (formatMessage ts (st.heap p).name "/name ") p
          (logMessage (formatMessage ts (st.heap p).name "/name ") st)) ∧
    (handleLine 1 1 "/name " "T" stAB).written 2 = ["[T][Alice]: /name \n"] ∧
    (handleLine 1 1 "/name " "T" stAB).written 1 = [] ∧
    (handleLine 1 1 "/name " "T" stAB).msgHistory = ["[T][Alice]: /name "] := by
  refine ⟨?_, by decide, by decide, by decide⟩
  intro conn p ts st
  exact handleLine_chat conn p "/name " ts st (by decide) (by decide)

/-- C9: an empty line changes nothing: no write to any session, no history entry, same
registry, same names; the read loop goes on with the next line. -/
theorem empty_line_ignored (st : State) (conn : Conn) (p : Ptr) (ts : String)
    (rest : List (String × String)) :
    handleLine conn p "" ts st = st ∧
    readLoop conn p (("", ts) :: rest) st = readLoop conn p rest st := by
  constructor
  · exact handleLine_empty conn p ts st
  · show readLoop conn p rest (handleLine conn p "" ts st) = readLoop conn p rest st
    rw [handleLine_empty]

/-! ## History log -/

/-- C5: starting from an empty log, after `logMessage` has appended `ms` in order,
`sendHistory` writes to the session exactly the entries of `ms`, each followed by a newline,
in insertion order; it writes to no other connection and leaves the log equal to `ms`. -/
theorem history_round_trip (st : State) (ms : List String) (p : Ptr)
    (hempty : st.msgHistory = []) :
    (logAll ms st).msgHistory = ms ∧
    (sendHistory p (logAll ms st)).written (st.heap p).conn =
      st.written (st.heap p).conn ++ ms.map (fun m => m ++ "\n") ∧
    (∀ c, c ≠ (st.heap p).conn → (sendHistory p (logAll ms st)).written c = st.written c) ∧
    (sendHistory p (logAll ms st)).msgHistory = ms := by
  have hlog : (logAll ms st).msgHistory = ms := by
    rw [logAll_eq, hempty]
    rfl
  refine ⟨hlog, ?_, ?_, ?_⟩
  · rw [sendHistory_written, hlog, logAll_eq, if_pos rfl]
  · intro c hc
    rw [sendHistory_written, logAll_eq, if_neg hc]
  · rw [(sendHistory_frame _ _).2.2.1, hlog]

theorem history_round_trip_witness :
    (sendHistory 2 (logAll ["m1", "m2", "m1"] stAB)).written 2 = ["m1\n", "m2\n", "m1\n"] ∧
    (sendHistory 2 (logAll ["m1", "m2", "m1"] stAB)).written 1 = [] ∧
    (sendHistory 2 (logAll ["m1", "m2", "m1"] stAB)).msgHistory = ["m1", "m2", "m1"] :=
  have h := history_round_trip stAB ["m1", "m2", "m1"] 2 (by decide)
  ⟨h.2.1, h.2.2.1 1 (by decide), h.2.2.2⟩

/-- History by the branches of the loop body.  For every protocol step the history before
is a prefix of the history after.  A line that is non-empty and rejected by the guard
`isNameCommand` adds exactly one entry, the string `formatMessage` that the same step
broadcasts; registration, removal, an empty line and a line accepted by the guard leave the
history unchanged.  The line `/name ` with nothing after it is rejected by the guard. -/
theorem msgHistory_by_guard (st : State) :
    (∀ s : Step, st.msgHistory <+: (step st s).msgHistory) ∧
    (∀ p, (step st (.register p)).msgHistory = st.msgHistory) ∧
    (∀ p, (step st (.unregister p)).msgHistory = st.msgHistory) ∧
    (∀ conn p ts, (step st (.line conn p "" ts)).msgHistory = st.msgHistory) ∧
    (∀ conn p m ts, isNameCommand m = true →
      (step st (.line conn p m ts)).msgHistory = st.msgHistory) ∧
    (∀ conn p m ts, m ≠ "" → isNameCommand m = false →
      (step st (.line conn p m ts)).msgHistory =
        st.msgHistory ++ [formatMessage ts (st.heap p).name m] ∧
      step st (.line conn p m ts) =
        broadcast (formatMessage ts (st.heap p).name m) p
          (logMessage (formatMessage ts (st.heap p).name m) st)) := by
  have hreg : ∀ p, (step st (.register p)).msgHistory = st.msgHistory :=
    fun p => registerClient_msgHistory p st
  have hunreg : ∀ p, (step st (.unregister p)).msgHistory = st.msgHistory :=
    fun p => unregisterClient_msgHistory p st
  have hempty : ∀ conn p ts, (step st (.line conn p "" ts)).msgHistory = st.msgHistory := by
    intro conn p ts
    show (handleLine conn p "" ts st).msgHistory = st.msgHistory
    rw [handleLine_empty]
  have hname : ∀ conn p m ts, isNameCommand m = true →
      (step st (.line conn p m ts)).msgHistory = st.msgHistory := by
    intro conn p m ts hc
    show (handleLine conn p m ts st).msgHistory = st.msgHistory
    rw [handleLine_rename conn p m ts st hc, write_msgHistory, (broadcast_frame _ _ _).2.2.1]
    rfl
  have hchat : ∀ conn p m ts, m ≠ "" → isNameCommand m = false →
      (step st (.line conn p m ts)).msgHistory =
        st.msgHistory ++ [formatMessage ts (st.heap p).name m] ∧
      step st (.line conn p m ts) =
        broadcast (formatMessage ts (st.heap p).name m) p
          (logMessage (formatMessage ts (st.heap p).name m) st) := by
    intro conn p m ts hm hc
    have heq : step st (.line conn p m ts) =
        broadcast (formatMessage ts (st.heap p).name m) p
          (logMessage (formatMessage ts (st.heap p).name m) st) :=
      handleLine_chat conn p m ts st hm hc
    refine ⟨?_, heq⟩
    rw [heq, (broadcast_frame _ _ _).2.2.1]
    rfl
  refine ⟨?_, hreg, hunreg, hempty, hname, hchat⟩
  intro s
  cases s with
  | register p => rw [hreg]
  | unregister p => rw [hunreg]
  | line conn p m ts =>
    by_cases hm : m = ""
    · rw [hm, hempty]
    · cases hc : isNameCommand m with
      | true => rw [hname conn p m ts hc]
      | false =>
        rw [(hchat conn p m ts hm hc).1]
        exact List.prefix_append _ _

theorem msgHistory_by_guard_example :
    (step stAB (.line 1 1 "hi" "T")).msgHistory = ["[T][Alice]: hi"] ∧
    (step stAB (.line 1 1 "/name Bob" "T")).msgHistory = [] ∧
    stAB.msgHistory <+: (step stAB (.register 2)).msgHistory :=
  have h := msgHistory_by_guard stAB
  ⟨(h.2.2.2.2.2 1 1 "hi" "T" (by decide) (by decide)).1,
   h.2.2.2.2.1 1 1 "/name Bob" "T" (by decide), h.1 (.register 2)⟩

/-- C10 (the code departs from the claim): the line `/name ` with nothing after it is a
rename command with an empty remainder, not a chat line, yet the step that handles it
extends the history.  In every state the history grows by the entry
`[timestamp][name]: /name `; with Alice and Carol registered and an empty history, the
history holds that one entry afterwards. -/
theorem bare_name_command_extends_history :
    (∀ (conn : Conn) (p : Ptr) (ts : String) (st : State),
      (step st (.line conn p "/name " ts)).msgHistory =
        st.msgHistory ++ [formatMessage ts (st.heap p).name "/name "]) ∧
    stAB.msgHistory = [] ∧
    (step stAB (.line 1 1 "/name " "T")).msgHistory = ["[T][Alice]: /name "] := by
  refine ⟨?_, by decide, by decide⟩
  intro conn p ts st
  show (handleLine conn p "/name " ts st).msgHistory =
    st.msgHistory ++ [formatMessage ts (st.heap p).name "/name "]
  rw [handleLine_chat conn p "/name " ts st (by decide) (by decide),
    (broadcast_frame _ _ _).2.2.1]
  rfl

/-! ## Registry -/

/-- C6: registering a new session (its connection is not yet a key of the registry) binds
it in the registry next to the old entries, writes `name has joined the chat` exactly once
to each session registered before and not to the new one, writes to the new session exactly
the history entries, in order, and writes to no other connection. -/
theorem register_new_session (st : State) (p : Ptr) (hwf : st.wf)
    (hnew : (st.heap p).conn ∉ st.clients.map Prod.fst) :
    (registerClient p st).clients = ((st.heap p).conn, p) :: st.clients ∧
    (registerClient p st).registered p ∧
    (∀ e ∈ st.clients,
      (registerClient p st).written e.1 =
        st.written e.1 ++ [((st.heap p).name ++ " has joined the chat") ++ "\n"]) ∧
    (registerClient p st).written (st.heap p).conn =
      st.written (st.heap p).conn ++ st.msgHistory.map (fun m => m ++ "\n") ∧
    (∀ c, c ≠ (st.heap p).conn → c ∉ st.clients.map Prod.fst →
      (registerClient p st).written c = st.written c) ∧
    (registerClient p st).msgHistory = st.msgHistory := by
  have hcl : (registerClient p st).clients = ((st.heap p).conn, p) :: st.clients := by
    rw [registerClient_clients]
    unfold mapInsert
    have := mapDelete_absent _ _ hnew
    unfold mapDelete at this
    rw [this]
  have hwf1 := wf_insert st p hwf
  have hins : mapInsert (st.heap p).conn p st.clients = ((st.heap p).conn, p) :: st.clients := by
    rw [← registerClient_clients, hcl]
  have hw : ∀ c, (registerClient p st).written c =
      if c = (st.heap p).conn then
        (broadcast ((st.heap p).name ++ " has joined the chat") p
          { st with clients := mapInsert (st.heap p).conn p st.clients }).written c ++
          st.msgHistory.map (fun m => m ++ "\n")
      else
        (broadcast ((st.heap p).name ++ " has joined the chat") p
          { st with clients := mapInsert (st.heap p).conn p st.clients }).written c := by
    intro c
    unfold registerClient
    simp only [sendHistory_written, (broadcast_frame _ _ _).1, (broadcast_frame _ _ _).2.2.1]
  refine ⟨hcl, ?_, ?_, ?_, ?_, registerClient_msgHistory p st⟩
  · unfold State.registered
    rw [registerClient_heap, hcl]
    exact List.mem_cons_self _ _
  · intro e he
    have hkey : e.1 ∈ st.clients.map Prod.fst := List.mem_map_of_mem Prod.fst he
    have hk : e.1 ≠ (st.heap p).conn := fun h => hnew (h ▸ hkey)
    have hs : e.2 ≠ p := fun h => hk (other_entry hwf he h)
    rw [hw, if_neg hk]
    have he1 : e ∈ mapInsert (st.heap p).conn p st.clients := by
      rw [hins]
      exact List.mem_cons_of_mem _ he
    exact broadcast_recipient _ p _ hwf1 e he1 hs
  · rw [hw, if_pos rfl]
    have hreg1 : ({ st with clients := mapInsert (st.heap p).conn p st.clients } :
        State).registered p := by
      show ((st.heap p).conn, p) ∈ mapInsert (st.heap p).conn p st.clients
      rw [hins]
      exact List.mem_cons_self _ _
    have h := broadcast_sender ((st.heap p).name ++ " has joined the chat") p _ hwf1 hreg1
    rw [h]
  · intro c hc hck
    rw [hw, if_neg hc]
    apply broadcast_unbound _ p _ hwf1 c
    show c ∉ (mapInsert (st.heap p).conn p st.clients).map Prod.fst
    rw [hins, List.map_cons, List.mem_cons]
    rintro (h | h)
    · exact hc h
    · exact hck h

theorem register_new_session_witness :
    (registerClient 2 stA).clients = [(2, 2), (1, 1)] ∧
    (registerClient 2 stA).written 1 = ["B has joined the chat\n"] ∧
    (registerClient 2 stA).written 2 = ["old\n"] :=
  have h := register_new_session stA 2 (by decide) (by decide)
  ⟨h.1, h.2.2.1 (1, 1) (by decide), h.2.2.2.1⟩

/-- C8: unregistering a registered session whose current name is `n` removes its entry and
no other, writes `n has left the chat` exactly once to every session that remains in the
registry, and writes nothing to the removed session. -/
theorem unregister_registered (st : State) (p : Ptr) (hwf : st.wf) (hreg : st.registered p) :
    ¬ (unregisterClient p st).registered p ∧
    (∀ e, e ∈ (unregisterClient p st).clients ↔
      (e ∈ st.clients ∧ e ≠ ((st.heap p).conn, p))) ∧
    (∀ e ∈ (unregisterClient p st).clients,
      (unregisterClient p st).written e.1 =
        st.written e.1 ++ [((st.heap p).name ++ " has left the chat") ++ "\n"]) ∧
    (unregisterClient p st).written (st.heap p).conn = st.written (st.heap p).conn := by
  have hmem : ∀ e, e ∈ (unregisterClient p st).clients ↔
      (e ∈ st.clients ∧ e ≠ ((st.heap p).conn, p)) := by
    intro e
    rw [unregisterClient_clients]
    unfold mapDelete
    rw [List.mem_filter]
    constructor
    · rintro ⟨he, hk⟩
      refine ⟨he, ?_⟩
      intro h
      rw [h] at hk
      simp at hk
    · rintro ⟨he, hne⟩
      refine ⟨he, ?_⟩
      have : e.1 ≠ (st.heap p).conn := fun h => hne (key_unique hwf.1 he hreg h)
      simpa using this
  refine ⟨?_, hmem, (unregisterClient_written p st hwf).1, (unregisterClient_written p st hwf).2⟩
  unfold State.registered
  rw [unregisterClient_heap]
  intro h
  exact ((hmem _).mp h).2 rfl

theorem unregister_registered_witness :
    ¬ (unregisterClient 2 (handleLine 2 2 "/name Dan" "T" stAB)).registered 2 ∧
    (unregisterClient 2 (handleLine 2 2 "/name Dan" "T" stAB)).clients = [(1, 1)] ∧
    (unregisterClient 2 (handleLine 2 2 "/name Dan" "T" stAB)).written 1 =
      ["Carol has changed their name to Dan\n", "Dan has left the chat\n"] ∧
    (unregisterClient 2 (handleLine 2 2 "/name Dan" "T" stAB)).written 2 =
      ["Your name has been changed to Dan\n"] :=
  have h := unregister_registered (handleLine 2 2 "/name Dan" "T" stAB) 2 (by decide)
    (by decide)
  ⟨h.1, by decide, h.2.2.1 (1, 1) (by decide), h.2.2.2⟩

/-- C7 (as stated it fails): with only `A` registered, unregistering the absent `B` writes
`B has left the chat` to `A`; and with Alice and Carol registered, unregistering Carol twice
writes the leave line to Alice twice. -/
theorem unregister_absent_writes :
    (stA.heap 2).conn ∉ stA.clients.map Prod.fst ∧
    ¬ stA.registered 2 ∧
    stA.written 1 = [] ∧
    (unregisterClient 2 stA).written 1 = ["B has left the chat\n"] ∧
    (unregisterClient 2 (unregisterClient 2 stAB)).written 1 =
      ["Carol has left the chat\n", "Carol has left the chat\n"] := by
  decide

/-- C7 (amended): unregistering a session whose connection is not a key of the registry
leaves the registry and the history unchanged and writes `n has left the chat` exactly once
to every registered session and to no other connection.  Unregistering the same session
twice in succession removes at most one entry (the second call removes nothing), and the
second call writes the leave line once more to every session still registered. -/
theorem unregister_absent (st : State) (p : Ptr) (hwf : st.wf) :
    ((st.heap p).conn ∉ st.clients.map Prod.fst →
      (unregisterClient p st).clients = st.clients ∧
      (unregisterClient p st).msgHistory = st.msgHistory ∧
      (∀ e ∈ st.clients,
        (unregisterClient p st).written e.1 =
          st.written e.1 ++ [((st.heap p).name ++ " has left the chat") ++ "\n"]) ∧
      (∀ c, c ∉ st.clients.map Prod.fst → (unregisterClient p st).written c = st.written c)) ∧
    (unregisterClient p (unregisterClient p st)).clients = (unregisterClient p st).clients ∧
    (∀ e ∈ (unregisterClient p st).clients,
      (unregisterClient p (unregisterClient p st)).written e.1 =
        (unregisterClient p st).written e.1 ++
          [((st.heap p).name ++ " has left the chat") ++ "\n"]) := by
  have habs : ∀ s : State, s.wf → (s.heap p).conn ∉ s.clients.map Prod.fst →
      (unregisterClient p s).clients = s.clients ∧
      (∀ e ∈ s.clients,
        (unregisterClient p s).written e.1 =
          s.written e.1 ++ [((s.heap p).name ++ " has left the chat") ++ "\n"]) := by
    intro s hs hk
    have hcl : (unregisterClient p s).clients = s.clients := by
      rw [unregisterClient_clients, mapDelete_absent _ _ hk]
    refine ⟨hcl, ?_⟩
    intro e he
    exact (unregisterClient_written p s hs).1 e (hcl ▸ he)
  refine ⟨?_, ?_, ?_⟩
  · intro hk
    refine ⟨(habs st hwf hk).1, unregisterClient_msgHistory p st, (habs st hwf hk).2, ?_⟩
    intro c hc
    have hc1 : c ∉ (mapDelete (st.heap p).conn st.clients).map Prod.fst := by
      rw [mapDelete_absent _ _ hk]
      exact hc
    exact broadcast_unbound _ p _ (wf_delete st (st.heap p).conn hwf) c hc1
  · have hk : ((unregisterClient p st).heap p).conn ∉
        (unregisterClient p st).clients.map Prod.fst := by
      rw [unregisterClient_heap, unregisterClient_clients]
      exact mapDelete_keys _ _
    exact (habs _ (wf_unregisterClient p st hwf) hk).1
  · have hk : ((unregisterClient p st).heap p).conn ∉
        (unregisterClient p st).clients.map Prod.fst := by
      rw [unregisterClient_heap, unregisterClient_clients]
      exact mapDelete_keys _ _
    have h := (habs _ (wf_unregisterClient p st hwf) hk).2
    rw [unregisterClient_heap] at h
    exact h

theorem unregister_absent_witness :
    (unregisterClient 2 stA).clients = [(1, 1)] ∧
    (unregisterClient 2 stA).written 1 = ["B has left the chat\n"] ∧
    (unregisterClient 2 (unregisterClient 2 stA)).clients = (unregisterClient 2 stA).clients :=
  have h := unregister_absent stA 2 (by decide)
  have h1 := h.1 (by decide)
  ⟨h1.1, h1.2.2.1 (1, 1) (by decide), h.2.1⟩

/-- C4 (the code departs from the claim): when the connection ends before a name line is
read (the first scan yields no line and the read loop gets no line either), `handleClient`
runs exactly as for a client that sent an empty name and then closed.  With `A` registered,
such a connection is bound in the registry after the entry part, `A` is sent a join and a
leave notification with an empty name, and the entry is removed again at the end. -/
theorem eof_before_name_still_registers :
    (∀ (conn : Conn) (art : String) (st : State),
      handleClient conn art none [] st = handleClient conn art (some "") [] st) ∧
    (handleClientEntry 2 "" none stA).2.clients = [(2, 3), (1, 1)] ∧
    (handleClientEntry 2 "" none stA).2.written 1 = [" has joined the chat\n"] ∧
    (handleClient 2 "" none [] stA).written 1 =
      [" has joined the chat\n", " has left the chat\n"] ∧
    (handleClient 2 "" none [] stA).clients = [(1, 1)] := by
  refine ⟨?_, by decide, by decide, by decide, by decide⟩
  intro conn art st
  rfl

end NetCat
